import Mathlib

/-!
Verification of the caching and metrics core of the behaviour-based
authentication models service (`models-service/cache_manager.py` and
`models-service/metrics.py`), as a shallow embedding in Lean.

Conventions of the embedding:
* Python machine integers and byte values are modelled as `Nat` with explicit
  reduction modulo `2^32` where 32-bit overflow matters (the SHA-256 rounds).
* Wall-clock instants (`time.time()`) are modelled as an explicit `Int`
  argument `now` threaded through every operation that reads the clock.
* Python float arithmetic on latencies/hit rates is modelled over `ℚ`.
  The percentile index `int(n * 0.95)` (and `int(n * 0.99)`, `int(n * 0.5)`)
  agrees with exact rational floor `95 * n / 100` (resp. `99 * n / 100`,
  `n / 2`) for every `n` up to two million, far beyond the 1000-sample cap
  `_max_latency_samples`, so the index is embedded as exact `Nat` division.
* Python exceptions are modelled with `Option`/`Except` return values.
* `collections.OrderedDict` is modelled as an association list whose head is
  the least recently used entry and whose last element is the most recently
  used one; `dict` lookups used only pointwise are modelled as functions
  `String → Option _`.
-/

/-! ### 32-bit words and SHA-256 (`hashlib.sha256(...).hexdigest()`) -/

/-- Reduce a natural number to a 32-bit word. -/
def w32 (n : Nat) : Nat := n % 4294967296

/-- Right rotation of a 32-bit word by `n` bits. -/
def rotr32 (n x : Nat) : Nat := w32 ((x >>> n) ||| (x <<< (32 - n)))

/-- Bitwise complement of a 32-bit word. -/
def compl32 (x : Nat) : Nat := x ^^^ 4294967295

/-- SHA-256 `Ch(x, y, z)`. -/
def sha2Ch (x y z : Nat) : Nat := (x &&& y) ^^^ (compl32 x &&& z)

/-- SHA-256 `Maj(x, y, z)`. -/
def sha2Maj (x y z : Nat) : Nat := (x &&& y) ^^^ (x &&& z) ^^^ (y &&& z)

/-- SHA-256 `Σ₀`. -/
def sha2S0 (x : Nat) : Nat := rotr32 2 x ^^^ rotr32 13 x ^^^ rotr32 22 x

/-- SHA-256 `Σ₁`. -/
def sha2S1 (x : Nat) : Nat := rotr32 6 x ^^^ rotr32 11 x ^^^ rotr32 25 x

/-- SHA-256 `σ₀`. -/
def sha2s0 (x : Nat) : Nat := rotr32 7 x ^^^ rotr32 18 x ^^^ (x >>> 3)

/-- SHA-256 `σ₁`. -/
def sha2s1 (x : Nat) : Nat := rotr32 17 x ^^^ rotr32 19 x ^^^ (x >>> 10)

/-- The 64 SHA-256 round constants (the fractional parts of the cube roots
of the first 64 primes, as 32-bit words, written in decimal). -/
def sha2K : List Nat :=
  [1116352408, 1899447441, 3049323471, 3921009573, 961987163, 1508970993,
   2453635748, 2870763221, 3624381080, 310598401, 607225278, 1426881987,
   1925078388, 2162078206, 2614888103, 3248222580, 3835390401, 4022224774,
   264347078, 604807628, 770255983, 1249150122, 1555081692, 1996064986,
   2554220882, 2821834349, 2952996808, 3210313671, 3336571891, 3584528711,
   113926993, 338241895, 666307205, 773529912, 1294757372, 1396182291,
   1695183700, 1986661051, 2177026350, 2456956037, 2730485921, 2820302411,
   3259730800, 3345764771, 3516065817, 3600352804, 4094571909, 275423344,
   430227734, 506948616, 659060556, 883997877, 958139571, 1322822218,
   1537002063, 1747873779, 1955562222, 2024104815, 2227730452, 2361852424,
   2428436474, 2756734187, 3204031479, 3329325298]

/-- The SHA-256 initial hash value (decimal). -/
def sha2H0 : List Nat :=
  [1779033703, 3144134277, 1013904242, 2773480762,
   1359893119, 2600822924, 528734635, 1541459225]

/-- Extend a 16-word message block to the 64-word schedule: each step appends
`σ₁(w[t-2]) + w[t-7] + σ₀(w[t-15]) + w[t-16] mod 2^32`. -/
def sha2Extend (ws : List Nat) : Nat → List Nat
  | 0 => ws
  | k + 1 =>
      sha2Extend
        (ws ++ [w32 (sha2s1 (ws.getD (ws.length - 2) 0) + ws.getD (ws.length - 7) 0 +
                     sha2s0 (ws.getD (ws.length - 15) 0) + ws.getD (ws.length - 16) 0)]) k

/-- One SHA-256 compression round on the working state `[a,b,c,d,e,f,g,h]`. -/
def sha2Round (st : List Nat) (k w : Nat) : List Nat :=
  match st with
  | [a, b, c, d, e, f, g, h] =>
      let t1 := w32 (h + sha2S1 e + sha2Ch e f g + k + w)
      let t2 := w32 (sha2S0 a + sha2Maj a b c)
      [w32 (t1 + t2), a, b, c, w32 (d + t1), e, f, g]
  | _ => st

/-- Compress one 16-word block into the running hash value. -/
def sha2Compress (h : List Nat) (block : List Nat) : List Nat :=
  let ws := sha2Extend block 48
  let st := (sha2K.zip ws).foldl (fun st kw => sha2Round st kw.1 kw.2) h
  (h.zip st).map (fun p => w32 (p.1 + p.2))

/-- The `n` bytes of `v` in big-endian order. -/
def bytesBE (n v : Nat) : List Nat :=
  (List.range n).map (fun i => (v >>> (8 * (n - 1 - i))) % 256)

/-- SHA-256 padding: append `0x80`, zero bytes up to 56 mod 64, then the
64-bit big-endian bit length of the message. -/
def sha2Pad (msg : List Nat) : List Nat :=
  let L := msg.length
  let k := (120 - (L + 1) % 64) % 64
  msg ++ 0x80 :: List.replicate k 0 ++ bytesBE 8 (8 * L)

/-- Group a byte list into 32-bit big-endian words. -/
def bytesToWords : List Nat → List Nat
  | b0 :: b1 :: b2 :: b3 :: rest => (((b0 * 256 + b1) * 256 + b2) * 256 + b3) :: bytesToWords rest
  | _ => []

/-- Group a word list into 16-word blocks. -/
def wordsToBlocks : List Nat → List (List Nat)
  | w0 :: w1 :: w2 :: w3 :: w4 :: w5 :: w6 :: w7 ::
    w8 :: w9 :: w10 :: w11 :: w12 :: w13 :: w14 :: w15 :: rest =>
      [w0, w1, w2, w3, w4, w5, w6, w7, w8, w9, w10, w11, w12, w13, w14, w15] ::
        wordsToBlocks rest
  | _ => []

/-- SHA-256 of a byte string, as the list of eight 32-bit hash words. -/
def sha256Words (msg : List Nat) : List Nat :=
  (wordsToBlocks (bytesToWords (sha2Pad msg))).foldl sha2Compress sha2H0

/-- Lower-case hexadecimal digit. -/
def hexDigit (n : Nat) : Char :=
  if n < 10 then Char.ofNat (48 + n) else Char.ofNat (87 + n)

/-- Eight lower-case hex digits of a 32-bit word, most significant first. -/
def word8Hex (w : Nat) : List Char :=
  (List.range 8).map (fun i => hexDigit ((w >>> (4 * (7 - i))) % 16))

/-- The 64 lower-case hex characters of `hashlib.sha256(msg).hexdigest()`. -/
def sha256HexChars (msg : List Nat) : List Char :=
  ((sha256Words msg).map word8Hex).flatten

/-! ### UTF-8 encoding (`str.encode()`) -/

/-- UTF-8 encoding of a single character. -/
def utf8Char (c : Char) : List Nat :=
  let n := c.toNat
  if n < 0x80 then [n]
  else if n < 0x800 then [0xC0 ||| (n >>> 6), 0x80 ||| (n % 64)]
  else if n < 0x10000 then
    [0xE0 ||| (n >>> 12), 0x80 ||| ((n >>> 6) % 64), 0x80 ||| (n % 64)]
  else
    [0xF0 ||| (n >>> 18), 0x80 ||| ((n >>> 12) % 64),
     0x80 ||| ((n >>> 6) % 64), 0x80 ||| (n % 64)]

/-- UTF-8 encoding of a string, as a byte list. -/
def utf8Bytes (s : String) : List Nat := (s.data.map utf8Char).flatten

/-! ### Structured input data and `json.dumps(data, sort_keys=True)`

`_generate_cache_key` receives arbitrary structured input (`Any`). We model
the JSON-serialisable values the service handles: `None`, booleans, integers,
strings, lists and string-keyed mappings. -/

/-- A structured input value, as passed to the cache layer. -/
inductive JVal where
  | jnull : JVal
  | jbool (b : Bool) : JVal
  | jnum (n : Int) : JVal
  | jstr (s : String) : JVal
  | jarr (items : List JVal) : JVal
  | jobj (fields : List (String × JVal)) : JVal

/-- Decimal digits of a natural number (`fuel` bounds the recursion; called
with `fuel = n`, which is always enough digits). -/
def natDigitsAux : Nat → Nat → List Char
  | 0, _ => []
  | fuel + 1, n => if n = 0 then [] else natDigitsAux fuel (n / 10) ++ [hexDigit (n % 10)]

/-- Decimal representation of a natural number. -/
def natRepr (n : Nat) : List Char :=
  if n = 0 then ['0'] else natDigitsAux n n

/-- Python `str`/`repr` of an integer. -/
def intReprChars (i : Int) : List Char :=
  if i < 0 then '-' :: natRepr i.natAbs else natRepr i.natAbs

/-- Code-point comparison of character lists: Python's `str` ordering,
used by `sorted`/`sort_keys` on mapping keys. -/
def charsLe : List Char → List Char → Bool
  | [], _ => true
  | _ :: _, [] => false
  | a :: as, b :: bs =>
      if a.toNat < b.toNat then true
      else if b.toNat < a.toNat then false
      else charsLe as bs

/-- Python string `<=` on code points. -/
def strLe (a b : String) : Bool := charsLe a.data b.data

/-- Key order on mapping fields, as used by `json.dumps(..., sort_keys=True)`.
(`sorted(dct.items())` compares the value only when keys are equal, which
cannot happen for the distinct keys of a `dict`, so the order is key-only.) -/
def keyLe {β : Type} (a b : String × β) : Prop := strLe a.1 b.1 = true

instance {β : Type} : DecidableRel (keyLe (β := β)) := fun a b => by
  unfold keyLe; infer_instance

/-- Four upper-case-free hex digits (`\uXXXX` escapes are lower case in
Python's `json`). -/
def hex4 (n : Nat) : List Char :=
  (List.range 4).map (fun i => hexDigit ((n >>> (4 * (3 - i))) % 16))

/-- JSON escaping of one character, following `json.dumps` defaults
(`ensure_ascii=True`): short escapes for the usual controls, `\uXXXX` for
other controls and all non-ASCII characters, surrogate pairs beyond the BMP. -/
def jsonEscapeChar (c : Char) : List Char :=
  let n := c.toNat
  if c = '"' then ['\\', '"']
  else if c = '\\' then ['\\', '\\']
  else if n = 8 then ['\\', 'b']
  else if n = 9 then ['\\', 't']
  else if n = 10 then ['\\', 'n']
  else if n = 12 then ['\\', 'f']
  else if n = 13 then ['\\', 'r']
  else if n < 32 then '\\' :: 'u' :: hex4 n
  else if n < 128 then [c]
  else if n < 0x10000 then '\\' :: 'u' :: hex4 n
  else
    let m := n - 0x10000
    ('\\' :: 'u' :: hex4 (0xD800 + (m >>> 10))) ++ ('\\' :: 'u' :: hex4 (0xDC00 + (m % 1024)))

/-- A JSON string literal: quotes around the escaped characters. -/
def jsonQuote (s : String) : List Char :=
  '"' :: (s.data.map jsonEscapeChar).flatten ++ ['"']

/-- Join rendered pieces with the default `json.dumps` item separator `", "`. -/
def joinCommaSep : List (List Char) → List Char
  | [] => []
  | [x] => x
  | x :: y :: xs => x ++ ',' :: ' ' :: joinCommaSep (y :: xs)

/-- Render one object field from its key and already-rendered value, with the
default `json.dumps` key separator `": "`. -/
def fieldChars (p : String × List Char) : List Char :=
  jsonQuote p.1 ++ ':' :: ' ' :: p.2

/-- Sort rendered fields by key, as `sort_keys=True` does. Sorting compares
keys only, so sorting the fields after rendering each value produces the same
output as `json.dumps`'s sort-then-render. -/
def sortRenderedFields (l : List (String × List Char)) : List (String × List Char) :=
  l.insertionSort keyLe

mutual

/-- Model of `json.dumps(v, sort_keys=True)` with the default separators
`", "` and `": "`. -/
def jsonDumps : JVal → List Char
  | .jnull => ['n', 'u', 'l', 'l']
  | .jbool true => ['t', 'r', 'u', 'e']
  | .jbool false => ['f', 'a', 'l', 's', 'e']
  | .jnum n => intReprChars n
  | .jstr s => jsonQuote s
  | .jarr items => '[' :: joinCommaSep (jsonItems items) ++ [']']
  | .jobj fields =>
      Char.ofNat 123 ::
        joinCommaSep ((sortRenderedFields (jsonFields fields)).map fieldChars) ++
          [Char.ofNat 125]

/-- Rendered array items, in order. -/
def jsonItems : List JVal → List (List Char)
  | [] => []
  | x :: xs => jsonDumps x :: jsonItems xs

/-- Object fields with each value rendered, insertion order preserved. -/
def jsonFields : List (String × JVal) → List (String × List Char)
  | [] => []
  | (k, v) :: xs => (k, jsonDumps v) :: jsonFields xs

end

/-- The serialisation step of `_generate_cache_key`: `json.dumps(data,
sort_keys=True)` when the input is a mapping or a list (`isinstance(data,
(dict, list))`), Python `str(data)` otherwise — a string is itself, an
integer its decimal form, booleans `True`/`False`, `None` its name. -/
def serializeData : JVal → List Char
  | .jarr items => jsonDumps (.jarr items)
  | .jobj fields => jsonDumps (.jobj fields)
  | .jnull => ['N', 'o', 'n', 'e']
  | .jbool true => ['T', 'r', 'u', 'e']
  | .jbool false => ['F', 'a', 'l', 's', 'e']
  | .jnum n => intReprChars n
  | .jstr s => s.data

/-! ### `LRUCache` (`cache_manager.py`, class `LRUCache`) -/

/-- State of an `LRUCache`. `cache` models the `OrderedDict`: the head is the
least recently used entry, the last element the most recently used one.
`timestamps` and `ttls` model the two bookkeeping `dict`s. -/
structure LRUCache (V : Type) where
  cache : List (String × V)
  timestamps : String → Option Int
  ttls : String → Option Int
  maxSize : Nat
  defaultTtl : Int
  hits : Nat
  misses : Nat

/-- Pointwise update of a string-keyed map. -/
def updMap {α : Type} (f : String → Option α) (k : String) (v : Option α) :
    String → Option α :=
  fun x => if x = k then v else f x

/-- Model of `LRUCache.__init__`. -/
def LRUCache.init (V : Type) (maxSize : Nat) (defaultTtl : Int) : LRUCache V :=
  ⟨[], fun _ => none, fun _ => none, maxSize, defaultTtl, 0, 0⟩

/-- Model of `LRUCache._is_expired`. -/
def LRUCache.isExpired {V : Type} (c : LRUCache V) (key : String) (now : Int) : Bool :=
  match c.timestamps key with
  | none => true
  | some ts =>
      let age := now - ts
      let ttl := (c.ttls key).getD c.defaultTtl
      decide (age > ttl)

/-- Model of `LRUCache._remove`: pop the key from the store and both bookkeeping maps. -/
def LRUCache.removeKey {V : Type} (c : LRUCache V) (key : String) : LRUCache V :=
  { c with
    cache := c.cache.filter (fun p => p.1 != key)
    timestamps := updMap c.timestamps key none
    ttls := updMap c.ttls key none }

/-- Model of `LRUCache.get`: returns the looked-up value together with the mutated
cache. A miss (absent or expired, the latter being removed) bumps the miss
counter; a hit moves the entry to the most-recently-used end and bumps the
hit counter. -/
def LRUCache.get {V : Type} (c : LRUCache V) (key : String) (now : Int) :
    Option V × LRUCache V :=
  match c.cache.lookup key with
  | none => (none, { c with misses := c.misses + 1 })
  | some v =>
      if c.isExpired key now then
        let c' := c.removeKey key
        (none, { c' with misses := c'.misses + 1 })
      else
        (some v,
         { c with
           cache := c.cache.filter (fun p => p.1 != key) ++ [(key, v)]
           hits := c.hits + 1 })

/-- The `while len(self._cache) >= self._max_size` eviction loop of
`LRUCache.set`: repeatedly remove the oldest (head) entry. Returns the
remaining entries and the evicted keys, or `none` when the loop reaches
`next(iter(...))` on an empty store (`max_size = 0`), which raises. -/
def evictLoop {V : Type} (maxSize : Nat) :
    List (String × V) → Option (List (String × V) × List String)
  | [] => if 0 ≥ maxSize then none else some ([], [])
  | (k, v) :: rest =>
      if ((k, v) :: rest).length ≥ maxSize then
        (evictLoop maxSize rest).map (fun p => (p.1, k :: p.2))
      else some ((k, v) :: rest, [])

/-- Model of `LRUCache.set`: remove an existing entry for the key, evict oldest entries
while at capacity, then append the new entry as most recently used with its
insertion timestamp and ttl (defaulted when not given). `none` models the
`StopIteration` raise of the eviction loop for `max_size = 0`. -/
def LRUCache.set {V : Type} (c : LRUCache V) (key : String) (v : V)
    (ttl : Option Int) (now : Int) : Option (LRUCache V) :=
  let c1 := if (c.cache.lookup key).isSome then c.removeKey key else c
  match evictLoop c1.maxSize c1.cache with
  | none => none
  | some (rem, evicted) =>
      let ts1 := evicted.foldl (fun f k => updMap f k none) c1.timestamps
      let tt1 := evicted.foldl (fun f k => updMap f k none) c1.ttls
      some { c1 with
        cache := rem ++ [(key, v)]
        timestamps := updMap ts1 key (some now)
        ttls := updMap tt1 key (some (ttl.getD c1.defaultTtl)) }

/-- Model of `LRUCache.clear`: empty the store and both bookkeeping maps (statistics
are kept). -/
def LRUCache.clear {V : Type} (c : LRUCache V) : LRUCache V :=
  { c with cache := [], timestamps := fun _ => none, ttls := fun _ => none }

/-- Model of `LRUCache.cleanup_expired`: collect the expired keys, then remove each. -/
def LRUCache.cleanupExpired {V : Type} (c : LRUCache V) (now : Int) : LRUCache V :=
  let expiredKeys := (c.cache.filter (fun p => c.isExpired p.1 now)).map Prod.fst
  expiredKeys.foldl (fun acc k => acc.removeKey k) c

/-- The record returned by `LRUCache.get_stats`. -/
structure CacheStats where
  size : Nat
  maxSize : Nat
  hits : Nat
  misses : Nat
  hitRatePercent : ℚ
deriving DecidableEq

/-- Python `round(x)` on an exact rational: nearest integer, ties to even. -/
def pyRoundHalfEven (q : ℚ) : Int :=
  let f := ⌊q⌋
  if q - f < 1 / 2 then f
  else if q - f > 1 / 2 then f + 1
  else if f % 2 = 0 then f else f + 1

/-- Python `round(x, 2)` on an exact rational. -/
def pyRound2 (q : ℚ) : ℚ := (pyRoundHalfEven (q * 100) : ℚ) / 100

/-- Model of `LRUCache.get_stats`. -/
def LRUCache.getStats {V : Type} (c : LRUCache V) : CacheStats :=
  let total := c.hits + c.misses
  let hitRate : ℚ := if total > 0 then (c.hits : ℚ) / (total : ℚ) * 100 else 0
  ⟨c.cache.length, c.maxSize, c.hits, c.misses, pyRound2 hitRate⟩

/-! ### `CacheManager` (`cache_manager.py`, class `CacheManager`) -/

/-- The cache-relevant configuration keys, with their `config.get` defaults. -/
structure CacheConfig where
  maxSize : Nat
  ttl : Int
  enabled : Bool

/-- The `config or \x7b\x7d` fallback followed by `config.get(..., default)` for a missing
configuration. -/
def defaultCacheConfig : CacheConfig := ⟨1000, 3600, true⟩

/-- State of a `CacheManager`: one `LRUCache` per encoder type, plus the
global `enabled` flag. -/
structure CacheManager (V : Type) where
  motionCache : LRUCache V
  gestureCache : LRUCache V
  typingCache : LRUCache V
  enabled : Bool

/-- Model of `CacheManager.__init__`. -/
def CacheManager.init (V : Type) (cfg : CacheConfig) : CacheManager V :=
  ⟨LRUCache.init V cfg.maxSize cfg.ttl, LRUCache.init V cfg.maxSize cfg.ttl,
   LRUCache.init V cfg.maxSize cfg.ttl, cfg.enabled⟩

/-- The membership test `encoder_type in self._caches`. -/
def knownEncoderType (encoderType : String) : Bool :=
  encoderType == "motion" || encoderType == "gesture" || encoderType == "typing"

/-- The lookup `self._caches[encoder_type]` (only meaningful when `knownEncoderType`). -/
def CacheManager.cacheOf {V : Type} (m : CacheManager V) (encoderType : String) :
    LRUCache V :=
  if encoderType == "motion" then m.motionCache
  else if encoderType == "gesture" then m.gestureCache
  else m.typingCache

/-- Write back the cache of one namespace after a mutating delegate call. -/
def CacheManager.withCache {V : Type} (m : CacheManager V) (encoderType : String)
    (c : LRUCache V) : CacheManager V :=
  if encoderType == "motion" then { m with motionCache := c }
  else if encoderType == "gesture" then { m with gestureCache := c }
  else { m with typingCache := c }

/-- Model of `CacheManager._generate_cache_key`: serialise the data, prefix
`f"{encoder_type}:"`, and keep the first 32 hex characters of the SHA-256
digest. -/
def generateCacheKey (encoderType : String) (data : JVal) : String :=
  let serialized := serializeData data
  let combined := String.mk (encoderType.data ++ ':' :: serialized)
  String.mk ((sha256HexChars (utf8Bytes combined)).take 32)

/-- Model of `CacheManager.get_embedding`: `None` when disabled or the encoder type is
unknown, otherwise delegate to that namespace's `LRUCache.get`. -/
def CacheManager.getEmbedding {V : Type} (m : CacheManager V) (encoderType : String)
    (data : JVal) (now : Int) : Option V × CacheManager V :=
  if !m.enabled then (none, m)
  else if !knownEncoderType encoderType then (none, m)
  else
    let key := generateCacheKey encoderType data
    let r := (m.cacheOf encoderType).get key now
    (r.1, m.withCache encoderType r.2)

/-- Model of `CacheManager.set_embedding`: a no-op when disabled or the encoder type is
unknown, otherwise delegate to that namespace's `LRUCache.set`. (A
`StopIteration` raise out of `set`, possible only for `max_size = 0`, would
propagate with that namespace's store still empty; it is modelled as leaving
the manager unchanged.) -/
def CacheManager.setEmbedding {V : Type} (m : CacheManager V) (encoderType : String)
    (data : JVal) (embedding : V) (ttl : Option Int) (now : Int) : CacheManager V :=
  if !m.enabled then m
  else if !knownEncoderType encoderType then m
  else
    let key := generateCacheKey encoderType data
    match (m.cacheOf encoderType).set key embedding ttl now with
    | none => m
    | some c' => m.withCache encoderType c'

/-! ### `MetricsCollector` (`metrics.py`) -/

/-- The sample cap `self._max_latency_samples`. -/
def maxLatencySamples : Nat := 1000

/-- State of a `MetricsCollector`. The `defaultdict(int)` counters are
modelled as total functions (default `0`), the `defaultdict(list)` sample
stores as total functions (default `[]`). The clock-derived fields
(`_start_time`, `_window_start`) are not modelled; no claim depends on them. -/
structure MetricsCollector where
  requestCount : String → Nat
  statusCount : String → Nat
  errorCount : String → Nat
  latencies : String → List ℚ
  inferenceTimes : String → List ℚ
  activeRequests : Int
  peakActiveRequests : Int
  cacheHits : Nat
  cacheMisses : Nat
  requestsInWindow : Nat

/-- Model of `MetricsCollector.__init__`. -/
def MetricsCollector.init : MetricsCollector :=
  ⟨fun _ => 0, fun _ => 0, fun _ => 0, fun _ => [], fun _ => [], 0, 0, 0, 0, 0⟩

/-- Bump a `defaultdict(int)` counter. -/
def bumpCount (f : String → Nat) (k : String) : String → Nat :=
  fun x => if x = k then f k + 1 else f x

/-- Pointwise update of a `defaultdict(list)` sample store. -/
def updSamples (f : String → List ℚ) (k : String) (l : List ℚ) : String → List ℚ :=
  fun x => if x = k then l else f x

/-- The trim step `if len(xs) > N: xs = xs[-N:]` keeping the most recent
`maxLatencySamples` samples. -/
def trimSamples (l : List ℚ) : List ℚ :=
  if l.length > maxLatencySamples then l.drop (l.length - maxLatencySamples) else l

/-- Model of `MetricsCollector.record_request_start`. -/
def MetricsCollector.recordRequestStart (m : MetricsCollector) : MetricsCollector :=
  { m with
    activeRequests := m.activeRequests + 1
    peakActiveRequests := max m.peakActiveRequests (m.activeRequests + 1) }

/-- Model of `MetricsCollector.record_request_end`: floor the active gauge at 0, bump
the per-endpoint/total/status(/error) counters, append the latency to the
endpoint series and the `all` series, trim both to the cap, and count the
request into the throughput window. -/
def MetricsCollector.recordRequestEnd (m : MetricsCollector) (endpoint : String)
    (statusCode : Int) (latencyMs : ℚ) : MetricsCollector :=
  let m1 := { m with activeRequests := max 0 (m.activeRequests - 1) }
  let m2 := { m1 with requestCount := bumpCount (bumpCount m1.requestCount endpoint) "total" }
  let m3 := { m2 with statusCount := bumpCount m2.statusCount (String.mk (intReprChars statusCode)) }
  let m4 :=
    if statusCode ≥ 400 then
      { m3 with errorCount := bumpCount (bumpCount m3.errorCount endpoint) "total" }
    else m3
  let lat1 := updSamples m4.latencies endpoint (m4.latencies endpoint ++ [latencyMs])
  let lat2 := updSamples lat1 "all" (lat1 "all" ++ [latencyMs])
  let lat3 := updSamples lat2 endpoint (trimSamples (lat2 endpoint))
  let lat4 := updSamples lat3 "all" (trimSamples (lat3 "all"))
  { m4 with latencies := lat4, requestsInWindow := m4.requestsInWindow + 1 }

/-- Model of `MetricsCollector.record_inference_time`. -/
def MetricsCollector.recordInferenceTime (m : MetricsCollector) (modelType : String)
    (timeMs : ℚ) : MetricsCollector :=
  let l := m.inferenceTimes modelType ++ [timeMs]
  { m with inferenceTimes := updSamples m.inferenceTimes modelType (trimSamples l) }

/-- Model of `MetricsCollector.record_cache_hit`. -/
def MetricsCollector.recordCacheHit (m : MetricsCollector) : MetricsCollector :=
  { m with cacheHits := m.cacheHits + 1 }

/-- Model of `MetricsCollector.record_cache_miss`. -/
def MetricsCollector.recordCacheMiss (m : MetricsCollector) : MetricsCollector :=
  { m with cacheMisses := m.cacheMisses + 1 }

/-- The record returned by `MetricsCollector._calculate_percentiles`. -/
structure PercentileSummary where
  avg : ℚ
  min : ℚ
  max : ℚ
  p50 : ℚ
  p95 : ℚ
  p99 : ℚ
deriving DecidableEq

/-- Model of `MetricsCollector._calculate_percentiles`: zeros on an empty series;
otherwise index the ascending-sorted samples at `int(n * 0.5)` /
`int(n * 0.95)` / `int(n * 0.99)` (the latter two falling back to the last
sorted element, i.e. `sorted_data[-1]`, below 20 resp. 100 samples), with
`min`/`max` the first and last sorted elements and `avg` the mean. The float
index `int(n * 0.95)` equals `95 * n / 100` on the program's whole sample
range (see the file header). -/
def calculatePercentiles (data : List ℚ) : PercentileSummary :=
  if data.isEmpty then ⟨0, 0, 0, 0, 0, 0⟩
  else
    let sorted := data.insertionSort (· ≤ ·)
    let n := data.length
    ⟨data.sum / (n : ℚ), sorted.getD 0 0, sorted.getD (n - 1) 0,
     sorted.getD (n / 2) 0,
     if n ≥ 20 then sorted.getD (95 * n / 100) 0 else sorted.getD (n - 1) 0,
     if n ≥ 100 then sorted.getD (99 * n / 100) 0 else sorted.getD (n - 1) 0⟩

/-! ### `cached_encode` (`cache_manager.py`) -/

/-- The module-level state touched by a `cached_encode`-wrapped call: the
global cache manager and the global metrics collector. -/
structure ServiceState (V : Type) where
  cacheMgr : CacheManager V
  metrics : MetricsCollector

/-- The wrapper produced by `cached_encode(encoder_type)` around an underlying
encode function `func`. The underlying call is modelled as
`func : JVal → Except E (Option V)`: `.error` is a raised exception
(propagated unchanged), `.ok none` a `None` result (not cached), `.ok (some v)`
a computed embedding. The returned `Nat` counts the calls made to `func`.
On a hit the cached value is returned after `record_cache_hit`; on a miss
`record_cache_miss` runs, `func` is called once, and a non-`None` result is
stored via `set_embedding`. -/
def cachedEncode {V E : Type} (encoderType : String) (func : JVal → Except E (Option V))
    (data : JVal) (st : ServiceState V) (now : Int) :
    Except E (Option V) × ServiceState V × Nat :=
  let r := st.cacheMgr.getEmbedding encoderType data now
  match r.1 with
  | some v => (.ok (some v), ⟨r.2, st.metrics.recordCacheHit⟩, 0)
  | none =>
      let ms := st.metrics.recordCacheMiss
      match func data with
      | .error e => (.error e, ⟨r.2, ms⟩, 1)
      | .ok none => (.ok none, ⟨r.2, ms⟩, 1)
      | .ok (some v) =>
          (.ok (some v), ⟨r.2.setEmbedding encoderType data v none now, ms⟩, 1)

/-! ### Operation sequences -/

/-- One public `LRUCache` operation, with its clock reading. -/
inductive COp (V : Type) where
  | opGet (key : String) (now : Int) : COp V
  | opSet (key : String) (v : V) (ttl : Option Int) (now : Int) : COp V
  | opClear : COp V
  | opCleanup (now : Int) : COp V

/-- Apply one operation to a cache. A `set` that raises (`max_size = 0`,
where the store is necessarily still empty) leaves the state unchanged. -/
def COp.apply {V : Type} (c : LRUCache V) : COp V → LRUCache V
  | .opGet key now => (c.get key now).2
  | .opSet key v ttl now =>
      match c.set key v ttl now with
      | none => c
      | some c' => c'
  | .opClear => c.clear
  | .opCleanup now => c.cleanupExpired now

/-- Run a freshly constructed cache through a sequence of operations. -/
def runCache {V : Type} (maxSize : Nat) (defaultTtl : Int) (ops : List (COp V)) :
    LRUCache V :=
  ops.foldl COp.apply (LRUCache.init V maxSize defaultTtl)

/-- One request-tracking `MetricsCollector` operation. -/
inductive MOp where
  | opStart : MOp
  | opEnd (endpoint : String) (statusCode : Int) (latencyMs : ℚ) : MOp

/-- Apply one request-tracking operation. -/
def MOp.apply (m : MetricsCollector) : MOp → MetricsCollector
  | .opStart => m.recordRequestStart
  | .opEnd e s l => m.recordRequestEnd e s l

/-- Run a freshly constructed collector through a sequence of operations. -/
def runMetrics (ops : List MOp) : MetricsCollector :=
  ops.foldl MOp.apply MetricsCollector.init

/-- The gauge values reached after each operation of a run, starting from
state `m` (the initial gauge of `m` itself is not included). -/
def postActives (m : MetricsCollector) : List MOp → List Int
  | [] => []
  | op :: ops => (MOp.apply m op).activeRequests :: postActives (MOp.apply m op) ops

/-- The C1/P2 scenario: capacity 3, insert `k1 k2 k3`, refresh `k1` via
`get`, then insert a fourth distinct key. -/
def lruScenario : LRUCache Int :=
  runCache 3 3600
    [.opSet "k1" 1 none 0, .opSet "k2" 2 none 0, .opSet "k3" 3 none 0,
     .opGet "k1" 0, .opSet "k4" 4 none 0]

/-- A full two-entry cache reached by two inserts, used to instantiate the
eviction-order theorem. -/
def twoEntryCache : LRUCache Int :=
  runCache 2 3600 [.opSet "a" 1 none 0, .opSet "b" 2 none 0]

/-- A one-entry cache whose entry was written at time 0 with ttl 1. -/
def expiredCache : LRUCache Int :=
  ⟨[("x", 7)], fun k => if k = "x" then some 0 else none,
    fun k => if k = "x" then some 1 else none, 5, 3600, 0, 0⟩

/-! ### Association-list helper lemmas -/

/-- A successful lookup means the key occurs among the stored keys. -/
theorem mem_keys_of_lookup_eq_some {V : Type} {l : List (String × V)} {key : String}
    {v : V} (h : l.lookup key = some v) : key ∈ l.map Prod.fst := by
  induction l with
  | nil => simp [List.lookup] at h
  | cons p t ih =>
      rcases p with ⟨k, w⟩
      by_cases hk : key = k
      · simp [hk]
      · have hb : (key == k) = false := beq_false_of_ne hk
        simp only [List.lookup, hb] at h
        exact List.mem_cons_of_mem _ (ih h)

/-- Removing a key makes subsequent lookups of that key miss. -/
theorem lookup_filter_ne_none {V : Type} (l : List (String × V)) (key : String) :
    (l.filter (fun p => p.1 != key)).lookup key = none := by
  induction l with
  | nil => rfl
  | cons p t ih =>
      rcases p with ⟨k, w⟩
      by_cases hk : k = key
      · have hb : (k != key) = false := by simp [bne_iff_ne, hk]
        simp only [List.filter, hb]
        exact ih
      · have hb : (k != key) = true := by simp [bne_iff_ne, hk]
        have hb' : (key == k) = false := beq_false_of_ne (Ne.symm hk)
        simp only [List.filter, hb, List.lookup, hb']
        exact ih

/-- Keys that are absent are not filtered out. -/
theorem filter_ne_of_not_mem {V : Type} {l : List (String × V)} {key : String}
    (h : key ∉ l.map Prod.fst) : l.filter (fun p => p.1 != key) = l := by
  induction l with
  | nil => rfl
  | cons p t ih =>
      rcases p with ⟨k, w⟩
      have hk : k ≠ key := fun e => h (by simp [← e])
      have ht : key ∉ t.map Prod.fst := fun e => h (List.mem_cons_of_mem _ e)
      have hb : (k != key) = true := by simp [bne_iff_ne, hk]
      simp only [List.filter, hb, ih ht]

/-- With distinct keys, removing a present key drops exactly one entry. -/
theorem length_filter_ne_of_nodup {V : Type} {l : List (String × V)} {key : String}
    (hnd : (l.map Prod.fst).Nodup) (hm : key ∈ l.map Prod.fst) :
    (l.filter (fun p => p.1 != key)).length + 1 = l.length := by
  induction l with
  | nil => simp at hm
  | cons p t ih =>
      rcases p with ⟨k, w⟩
      rw [List.map_cons] at hnd hm
      rcases List.nodup_cons.mp hnd with ⟨hk1, hk2⟩
      by_cases hk : k = key
      · have hb : (k != key) = false := by simp [bne_iff_ne, hk]
        have : key ∉ t.map Prod.fst := hk ▸ hk1
        simp only [List.filter, hb, filter_ne_of_not_mem this, List.length_cons]
      · rcases List.mem_cons.mp hm with hm1 | hm1
        · exact absurd hm1.symm hk
        · have hb : (k != key) = true := by simp [bne_iff_ne, hk]
          simp only [List.filter, hb, List.length_cons]
          rw [← ih hk2 hm1]

/-- Removing a present key strictly shrinks the list. -/
theorem length_filter_ne_lt {V : Type} {l : List (String × V)} {key : String} {v : V}
    (h : l.lookup key = some v) :
    (l.filter (fun p => p.1 != key)).length < l.length := by
  induction l with
  | nil => simp [List.lookup] at h
  | cons p t ih =>
      rcases p with ⟨k, w⟩
      by_cases hk : key = k
      · have hb : (k != key) = false := by simp [bne_iff_ne, hk.symm]
        simp only [List.filter, hb, List.length_cons]
        exact Nat.lt_succ_of_le (List.length_filter_le _ t)
      · have hb' : (key == k) = false := beq_false_of_ne hk
        have hb : (k != key) = true := by simp [bne_iff_ne]; exact fun e => hk e.symm
        simp only [List.lookup, hb'] at h
        simp only [List.filter, hb, List.length_cons]
        exact Nat.succ_lt_succ (ih h)

/-! ### `LRUCache` structural lemmas -/

/-- The eviction loop leaves strictly fewer entries than `max_size` whenever
it completes without raising. -/
theorem evictLoop_length {V : Type} {maxSize : Nat} :
    ∀ {entries rem : List (String × V)} {ks : List String},
      evictLoop maxSize entries = some (rem, ks) → rem.length < maxSize := by
  intro entries
  induction entries with
  | nil =>
      intro rem ks h
      unfold evictLoop at h
      split at h
      · exact Option.noConfusion h
      · simp only [Option.some.injEq, Prod.mk.injEq] at h
        rw [← h.1]
        simpa using by omega
  | cons p t ih =>
      intro rem ks h
      rcases p with ⟨k, v⟩
      unfold evictLoop at h
      split at h
      · rcases h2 : evictLoop maxSize t with _ | ⟨⟨r, ks'⟩⟩
        · rw [h2] at h; simp at h
        · rw [h2] at h
          have h3 : r = rem := congrArg Prod.fst (Option.some.inj h)
          exact h3 ▸ ih h2
      · simp only [Option.some.injEq, Prod.mk.injEq] at h
        rw [← h.1]
        omega

/-- The eviction loop completes whenever the capacity is at least one. -/
theorem evictLoop_isSome {V : Type} {maxSize : Nat} (h1 : 1 ≤ maxSize) :
    ∀ (entries : List (String × V)), (evictLoop maxSize entries).isSome := by
  intro entries
  induction entries with
  | nil =>
      unfold evictLoop
      split
      · omega
      · rfl
  | cons p t ih =>
      rcases p with ⟨k, v⟩
      unfold evictLoop
      split
      · rcases Option.isSome_iff_exists.mp ih with ⟨r, hr⟩
        rw [hr]
        rfl
      · rfl

/-- A completed `set` leaves at most `max_size` entries and preserves the
capacity, the statistics and the default ttl. -/
theorem set_result_spec {V : Type} {c c' : LRUCache V} {key : String} {v : V}
    {ttl : Option Int} {now : Int} (h : c.set key v ttl now = some c') :
    c'.cache.length ≤ c.maxSize ∧ c'.maxSize = c.maxSize ∧
      c'.hits = c.hits ∧ c'.misses = c.misses ∧ c'.defaultTtl = c.defaultTtl := by
  by_cases hs : (c.cache.lookup key).isSome
  · simp only [LRUCache.set, hs, if_true] at h
    split at h
    · exact Option.noConfusion h
    · rename_i rem ev heq
      have hlen : rem.length < c.maxSize := evictLoop_length (V := V) heq
      have h' := Option.some.inj h
      rw [← h']
      refine ⟨?_, rfl, rfl, rfl, rfl⟩
      simp only [List.length_append, List.length_cons, List.length_nil]
      omega
  · simp only [LRUCache.set, hs, if_false] at h
    split at h
    · exact Option.noConfusion h
    · rename_i rem ev heq
      have hlen : rem.length < c.maxSize := evictLoop_length (V := V) heq
      have h' := Option.some.inj h
      rw [← h']
      refine ⟨?_, rfl, rfl, rfl, rfl⟩
      simp only [List.length_append, List.length_cons, List.length_nil]
      omega

/-- A `get` never grows the store and preserves capacity and default ttl. -/
theorem get_snd_spec {V : Type} (c : LRUCache V) (key : String) (now : Int) :
    (c.get key now).2.cache.length ≤ c.cache.length ∧
      (c.get key now).2.maxSize = c.maxSize ∧
      (c.get key now).2.defaultTtl = c.defaultTtl := by
  unfold LRUCache.get
  rcases hl : c.cache.lookup key with _ | v
  · simp only [hl]
    exact ⟨Nat.le_refl _, by trivial, by trivial⟩
  · simp only [hl]
    cases he : c.isExpired key now
    · simp only [Bool.false_eq_true, if_false]
      refine ⟨?_, by trivial, by trivial⟩
      simp only [List.length_append, List.length_cons, List.length_nil]
      have := length_filter_ne_lt hl
      omega
    · simp only [if_true]
      exact ⟨List.length_filter_le _ _, by trivial, by trivial⟩

/-- Repeatedly removing keys never grows the store and preserves capacity and
default ttl. -/
theorem foldl_removeKey_spec {V : Type} (ks : List String) :
    ∀ (c : LRUCache V),
      ((ks.foldl (fun acc k => acc.removeKey k) c)).cache.length ≤ c.cache.length ∧
      ((ks.foldl (fun acc k => acc.removeKey k) c)).maxSize = c.maxSize ∧
      ((ks.foldl (fun acc k => acc.removeKey k) c)).defaultTtl = c.defaultTtl := by
  induction ks with
  | nil => exact fun c => ⟨Nat.le_refl _, rfl, rfl⟩
  | cons k t ih =>
      intro c
      rcases ih (c.removeKey k) with ⟨h1, h2, h3⟩
      refine ⟨le_trans h1 ?_, h2, h3⟩
      exact List.length_filter_le _ _

/-- One public operation preserves the configured capacity. -/
theorem apply_maxSize {V : Type} (c : LRUCache V) (op : COp V) :
    (COp.apply c op).maxSize = c.maxSize := by
  rcases op with ⟨key, now⟩ | ⟨key, v, ttl, now⟩ | _ | now
  · exact (get_snd_spec c key now).2.1
  · simp only [COp.apply]
    rcases hs : c.set key v ttl now with _ | c'
    · rfl
    · exact (set_result_spec hs).2.1
  · rfl
  · exact (foldl_removeKey_spec _ c).2.1

/-- One public operation keeps the store within capacity. -/
theorem apply_le_maxSize {V : Type} (c : LRUCache V) (op : COp V)
    (hinv : c.cache.length ≤ c.maxSize) :
    (COp.apply c op).cache.length ≤ (COp.apply c op).maxSize := by
  rw [apply_maxSize]
  rcases op with ⟨key, now⟩ | ⟨key, v, ttl, now⟩ | _ | now
  · exact le_trans (get_snd_spec c key now).1 hinv
  · simp only [COp.apply]
    rcases hs : c.set key v ttl now with _ | c'
    · exact hinv
    · exact (set_result_spec hs).1
  · exact Nat.zero_le _
  · exact le_trans (foldl_removeKey_spec _ c).1 hinv

/-- Every reachable cache state keeps the store within capacity. -/
theorem run_le_maxSize {V : Type} (ops : List (COp V)) :
    ∀ (c : LRUCache V), c.cache.length ≤ c.maxSize →
      (ops.foldl COp.apply c).cache.length ≤ (ops.foldl COp.apply c).maxSize := by
  induction ops with
  | nil => exact fun c h => h
  | cons op t ih =>
      intro c h
      exact ih _ (apply_le_maxSize c op h)

/-- Every reachable cache state retains the configured capacity. -/
theorem run_maxSize_eq {V : Type} (ops : List (COp V)) :
    ∀ (c : LRUCache V), (ops.foldl COp.apply c).maxSize = c.maxSize := by
  induction ops with
  | nil => exact fun _ => rfl
  | cons op t ih =>
      intro c
      rw [List.foldl_cons, ih, apply_maxSize]

/-- C2. Capacity invariant: for every `LRUCache` created with capacity
`max_size` and every finite sequence of `get`, `set`, `clear` and
`cleanup_expired` operations, after each operation the number of stored
entries is at most `max_size` (a `set` evicts oldest entries until back under
capacity before completing the insertion; any prefix of the sequence is
itself a sequence of this form, so the bound holds after every operation of
the sequence). -/
theorem lru_capacity_invariant {V : Type} (maxSize : Nat) (defaultTtl : Int)
    (ops : List (COp V)) :
    (runCache maxSize defaultTtl ops).cache.length ≤ maxSize := by
  have h1 := run_le_maxSize ops (LRUCache.init V maxSize defaultTtl) (Nat.zero_le _)
  have h2 := run_maxSize_eq ops (LRUCache.init V maxSize defaultTtl)
  rw [runCache]
  rw [h2] at h1
  exact h1

/-- A `none` lookup is exactly absence of the key. -/
theorem lookup_none_iff_not_mem {V : Type} (l : List (String × V)) (key : String) :
    l.lookup key = none ↔ key ∉ l.map Prod.fst := by
  induction l with
  | nil => simp [List.lookup]
  | cons p t ih =>
      rcases p with ⟨k, w⟩
      by_cases hk : key = k
      · have hb : (key == k) = true := by simp [hk]
        simp [List.lookup, hb, hk]
      · have hb : (key == k) = false := beq_false_of_ne hk
        simp only [List.lookup, hb, List.map_cons, List.mem_cons]
        rw [ih]
        constructor
        · exact fun h1 h2 => h1 (h2.resolve_left hk)
        · exact fun h1 h2 => h1 (Or.inr h2)

/-- Lookups skip a prefix that does not contain the key. -/
theorem lookup_append_of_not_mem_left {V : Type} {l1 : List (String × V)}
    (l2 : List (String × V)) {key : String} (h : key ∉ l1.map Prod.fst) :
    (l1 ++ l2).lookup key = l2.lookup key := by
  induction l1 with
  | nil => rfl
  | cons p t ih =>
      rcases p with ⟨k, w⟩
      have hk : key ≠ k := fun e => h (by simp [e])
      have hb : (key == k) = false := beq_false_of_ne hk
      have ht : key ∉ t.map Prod.fst := fun e => h (List.mem_cons_of_mem _ e)
      simp only [List.cons_append, List.lookup, hb]
      exact ih ht

/-- Entries surviving the eviction loop were already present. -/
theorem evictLoop_subset {V : Type} {maxSize : Nat} :
    ∀ {entries rem : List (String × V)} {ks : List String},
      evictLoop maxSize entries = some (rem, ks) → ∀ p ∈ rem, p ∈ entries := by
  intro entries
  induction entries with
  | nil =>
      intro rem ks h
      unfold evictLoop at h
      split at h
      · exact Option.noConfusion h
      · simp only [Option.some.injEq, Prod.mk.injEq] at h
        rw [← h.1]
        intro p hp
        exact absurd hp (List.not_mem_nil p)
  | cons q t ih =>
      intro rem ks h
      rcases q with ⟨k, v⟩
      unfold evictLoop at h
      split at h
      · rcases h2 : evictLoop maxSize t with _ | ⟨⟨r, ks'⟩⟩
        · rw [h2] at h; exact Option.noConfusion h
        · rw [h2] at h
          have h3 : r = rem := congrArg Prod.fst (Option.some.inj h)
          intro p hp
          exact List.mem_cons_of_mem _ (ih h2 p (h3 ▸ hp))
      · simp only [Option.some.injEq, Prod.mk.injEq] at h
        rw [← h.1]
        exact fun p hp => hp

/-- A completed `set` stores the value under the key. -/
theorem set_inserts {V : Type} {c c' : LRUCache V} {key : String} {v : V}
    {ttl : Option Int} {now : Int} (h : c.set key v ttl now = some c') :
    c'.cache.lookup key = some v := by
  by_cases hs : (c.cache.lookup key).isSome
  · simp only [LRUCache.set, hs, if_true] at h
    split at h
    · exact Option.noConfusion h
    · rename_i rem ev heq
      have h' := Option.some.inj h
      rw [← h']
      have hn : key ∉ ((c.removeKey key).cache.map Prod.fst) :=
        (lookup_none_iff_not_mem _ _).mp (lookup_filter_ne_none c.cache key)
      have hremn : key ∉ rem.map Prod.fst := by
        intro hmem
        rcases List.mem_map.mp hmem with ⟨p, hp, hpk⟩
        exact hn (List.mem_map.mpr ⟨p, evictLoop_subset heq p hp, hpk⟩)
      show (rem ++ [(key, v)]).lookup key = some v
      rw [lookup_append_of_not_mem_left _ hremn]
      simp [List.lookup]
  · simp only [LRUCache.set, hs, if_false] at h
    split at h
    · exact Option.noConfusion h
    · rename_i rem ev heq
      have h' := Option.some.inj h
      rw [← h']
      have hn : key ∉ (c.cache.map Prod.fst) :=
        (lookup_none_iff_not_mem _ _).mp (Option.not_isSome_iff_eq_none.mp hs)
      have hremn : key ∉ rem.map Prod.fst := by
        intro hmem
        rcases List.mem_map.mp hmem with ⟨p, hp, hpk⟩
        exact hn (List.mem_map.mpr ⟨p, evictLoop_subset heq p hp, hpk⟩)
      show (rem ++ [(key, v)]).lookup key = some v
      rw [lookup_append_of_not_mem_left _ hremn]
      simp [List.lookup]

/-- C10. `LRUCache.set` is total exactly for positive capacity: with
`max_size = 0` the first `set` on a fresh cache reaches the eviction loop
with an empty store and raises (`next(iter(...))` on an empty ordered
mapping, modelled as `none`), the store still being empty; with
`max_size ≥ 1`, `set` never raises and completes the insertion, the new
value being stored under the key. -/
theorem lru_set_totality {V : Type} (key : String) (v : V) (ttl : Option Int)
    (now : Int) (defaultTtl : Int) :
    (LRUCache.init V 0 defaultTtl).set key v ttl now = none ∧
      ∀ (c : LRUCache V), 1 ≤ c.maxSize →
        ((c.set key v ttl now).isSome = true ∧
          ∀ c', c.set key v ttl now = some c' → c'.cache.lookup key = some v) := by
  constructor
  · rfl
  · intro c h1
    refine ⟨?_, fun c' hc' => set_inserts hc'⟩
    by_cases hs : (c.cache.lookup key).isSome
    · rcases Option.isSome_iff_exists.mp
        (evictLoop_isSome (V := V) h1 (c.removeKey key).cache) with ⟨⟨rem, ev⟩, hev⟩
      simp only [LRUCache.removeKey] at hev
      simp [LRUCache.set, LRUCache.removeKey, hs, hev]
    · rcases Option.isSome_iff_exists.mp
        (evictLoop_isSome (V := V) h1 c.cache) with ⟨⟨rem, ev⟩, hev⟩
      simp [LRUCache.set, hs, hev]

/-- C10 witness: at capacity 1, a concrete `set` completes and stores its
value. -/
theorem lru_set_totality_witness :
    (((LRUCache.init Int 1 3600).set "k" 5 none 0).isSome = true ∧
      ∀ c', (LRUCache.init Int 1 3600).set "k" 5 none 0 = some c' →
        c'.cache.lookup "k" = some 5) :=
  (lru_set_totality "k" (5 : Int) none 0 3600).2 (LRUCache.init Int 1 3600) (by decide)

/-- Python `round(0, 2)` is `0`. -/
theorem pyRound2_zero : pyRound2 0 = 0 := by
  norm_num [pyRound2, pyRoundHalfEven]

/-- C7. `get_stats` reports the exact size, capacity and counters, and a hit
rate of `round(100·H/(H+M), 2)` when `H + M > 0` and `0` when both counters
are zero (no division by zero). -/
theorem lru_hit_rate {V : Type} (c : LRUCache V) :
    c.getStats.size = c.cache.length ∧
      c.getStats.maxSize = c.maxSize ∧
      c.getStats.hits = c.hits ∧
      c.getStats.misses = c.misses ∧
      (0 < c.hits + c.misses →
        c.getStats.hitRatePercent =
          pyRound2 (100 * (c.hits : ℚ) / ((c.hits : ℚ) + (c.misses : ℚ)))) ∧
      (c.hits = 0 → c.misses = 0 → c.getStats.hitRatePercent = 0) := by
  refine ⟨rfl, rfl, rfl, rfl, ?_, ?_⟩
  · intro h
    show pyRound2 (if 0 < c.hits + c.misses then
        ((c.hits : ℚ) / ((c.hits + c.misses : Nat) : ℚ) * 100) else 0) = _
    rw [if_pos h]
    congr 1
    push_cast
    ring
  · intro h1 h2
    show pyRound2 (if 0 < c.hits + c.misses then
        ((c.hits : ℚ) / ((c.hits + c.misses : Nat) : ℚ) * 100) else 0) = 0
    rw [if_neg (by omega)]
    exact pyRound2_zero

/-- C7 witness: a cache with one hit and three misses. -/
theorem lru_hit_rate_witness :
    ({ LRUCache.init Int 4 3600 with hits := 1, misses := 3 } : LRUCache Int).getStats.hitRatePercent =
      pyRound2 (100 * ((({ LRUCache.init Int 4 3600 with hits := 1, misses := 3 } : LRUCache Int).hits : ℚ)) /
        ((({ LRUCache.init Int 4 3600 with hits := 1, misses := 3 } : LRUCache Int).hits : ℚ) +
          (({ LRUCache.init Int 4 3600 with hits := 1, misses := 3 } : LRUCache Int).misses : ℚ))) :=
  (lru_hit_rate ({ LRUCache.init Int 4 3600 with hits := 1, misses := 3 } : LRUCache Int)).2.2.2.2.1
    (by decide)

/-- C4. With caching disabled or an unrecognised encoder type, `get_embedding`
returns `None` with the manager unchanged (so no entry is added or removed in
any namespace and no hit/miss counter changes), `set_embedding` returns the
manager unchanged, and a `set_embedding` followed by `get_embedding` on the
same `(encoder_type, data)` still returns `None`. -/
theorem cache_manager_disabled_noop {V : Type} (m : CacheManager V) (t : String)
    (d : JVal) (emb : V) (ttl : Option Int) (now now2 : Int)
    (h : m.enabled = false ∨ knownEncoderType t = false) :
    m.getEmbedding t d now = (none, m) ∧
      m.setEmbedding t d emb ttl now = m ∧
      ((m.setEmbedding t d emb ttl now).getEmbedding t d now2).1 = none := by
  rcases h with h | h
  · refine ⟨?_, ?_, ?_⟩ <;>
      simp [CacheManager.getEmbedding, CacheManager.setEmbedding, h]
  · by_cases he : m.enabled
    · refine ⟨?_, ?_, ?_⟩ <;>
        simp [CacheManager.getEmbedding, CacheManager.setEmbedding, h, he]
    · refine ⟨?_, ?_, ?_⟩ <;>
        simp [CacheManager.getEmbedding, CacheManager.setEmbedding,
          Bool.of_not_eq_true he]

/-- C4 witness: a disabled manager is a no-op for `set_embedding` and
`get_embedding`. -/
theorem cache_manager_disabled_noop_witness :
    (CacheManager.init Int ⟨1000, 3600, false⟩).getEmbedding "motion" (.jstr "x") 0 =
        (none, CacheManager.init Int ⟨1000, 3600, false⟩) ∧
      (CacheManager.init Int ⟨1000, 3600, false⟩).setEmbedding "motion" (.jstr "x") 5 none 0 =
        CacheManager.init Int ⟨1000, 3600, false⟩ ∧
      (((CacheManager.init Int ⟨1000, 3600, false⟩).setEmbedding "motion" (.jstr "x") 5 none 0).getEmbedding
          "motion" (.jstr "x") 1).1 = none :=
  cache_manager_disabled_noop (CacheManager.init Int ⟨1000, 3600, false⟩) "motion"
    (.jstr "x") 5 none 0 1 (Or.inl rfl)

/-- A `record_request_end` floors the active gauge at zero. -/
theorem recordRequestEnd_active (m : MetricsCollector) (e : String) (s : Int) (l : ℚ) :
    (m.recordRequestEnd e s l).activeRequests = max 0 (m.activeRequests - 1) := by
  simp only [MetricsCollector.recordRequestEnd]
  split <;> rfl

/-- A `record_request_end` does not change the peak gauge. -/
theorem recordRequestEnd_peak (m : MetricsCollector) (e : String) (s : Int) (l : ℚ) :
    (m.recordRequestEnd e s l).peakActiveRequests = m.peakActiveRequests := by
  simp only [MetricsCollector.recordRequestEnd]
  split <;> rfl

/-- One request-tracking operation keeps the gauges consistent: the new peak
is the maximum of the old peak and the new active count, and the active count
stays nonnegative and below the peak. -/
theorem apply_peak_eq (m : MetricsCollector) (op : MOp)
    (h0 : 0 ≤ m.activeRequests) (h1 : m.activeRequests ≤ m.peakActiveRequests) :
    (MOp.apply m op).peakActiveRequests =
        max m.peakActiveRequests (MOp.apply m op).activeRequests ∧
      0 ≤ (MOp.apply m op).activeRequests ∧
      (MOp.apply m op).activeRequests ≤ (MOp.apply m op).peakActiveRequests := by
  rcases op with _ | ⟨e, s, l⟩
  · refine ⟨rfl, by show (0:Int) ≤ m.activeRequests + 1; omega, ?_⟩
    show m.activeRequests + 1 ≤ max m.peakActiveRequests (m.activeRequests + 1)
    exact le_max_right _ _
  · have ha := recordRequestEnd_active m e s l
    have hp := recordRequestEnd_peak m e s l
    have hle : max 0 (m.activeRequests - 1) ≤ m.peakActiveRequests :=
      max_le (le_trans h0 h1) (le_trans (by omega) h1)
    refine ⟨?_, ?_, ?_⟩
    · show (m.recordRequestEnd e s l).peakActiveRequests =
        max m.peakActiveRequests (m.recordRequestEnd e s l).activeRequests
      rw [hp, ha]
      exact (max_eq_left hle).symm
    · show (0:Int) ≤ (m.recordRequestEnd e s l).activeRequests
      rw [ha]
      exact le_max_left _ _
    · show (m.recordRequestEnd e s l).activeRequests ≤
        (m.recordRequestEnd e s l).peakActiveRequests
      rw [ha, hp]
      exact hle

/-- Over any run, the peak gauge is the running maximum of the active gauge,
and the active gauge stays nonnegative. -/
theorem run_peak_eq (ops : List MOp) :
    ∀ (m : MetricsCollector), 0 ≤ m.activeRequests →
      m.activeRequests ≤ m.peakActiveRequests →
      ((ops.foldl MOp.apply m).peakActiveRequests =
          (postActives m ops).foldl max m.peakActiveRequests ∧
        0 ≤ (ops.foldl MOp.apply m).activeRequests) := by
  induction ops with
  | nil => exact fun m h0 h1 => ⟨rfl, h0⟩
  | cons op t ih =>
      intro m h0 h1
      rcases apply_peak_eq m op h0 h1 with ⟨hp, ha0, hap⟩
      rcases ih (MOp.apply m op) ha0 hap with ⟨ih1, ih2⟩
      refine ⟨?_, ih2⟩
      rw [List.foldl_cons, ih1, hp]
      simp [postActives]

/-- C8. The active-request gauge never becomes negative (an unmatched
`record_request_end` on an active count of zero leaves it at zero), and the
peak gauge always equals the maximum active count ever reached over the run;
in particular three `record_request_start`s yield active = 3 and peak = 3,
and two subsequent `record_request_end`s yield active = 1 with peak still 3. -/
theorem metrics_active_peak :
    (∀ ops : List MOp,
        0 ≤ (runMetrics ops).activeRequests ∧
          (runMetrics ops).peakActiveRequests =
            (postActives MetricsCollector.init ops).foldl max 0) ∧
      (∀ (m : MetricsCollector) (e : String) (s : Int) (l : ℚ),
        m.activeRequests = 0 → (m.recordRequestEnd e s l).activeRequests = 0) ∧
      (runMetrics [.opStart, .opStart, .opStart]).activeRequests = 3 ∧
      (runMetrics [.opStart, .opStart, .opStart]).peakActiveRequests = 3 ∧
      (runMetrics [.opStart, .opStart, .opStart,
        .opEnd "e" 200 5, .opEnd "e" 200 5]).activeRequests = 1 ∧
      (runMetrics [.opStart, .opStart, .opStart,
        .opEnd "e" 200 5, .opEnd "e" 200 5]).peakActiveRequests = 3 := by
  refine ⟨?_, ?_, by decide, by decide, by decide, by decide⟩
  · intro ops
    rcases run_peak_eq ops MetricsCollector.init le_rfl le_rfl with ⟨h1, h2⟩
    exact ⟨h2, h1⟩
  · intro m e s l h
    rw [recordRequestEnd_active, h]
    decide

/-- C8 witness: an unmatched `record_request_end` on the fresh collector
leaves the active gauge at zero. -/
theorem metrics_active_peak_witness :
    (MetricsCollector.init.recordRequestEnd "e" 200 5).activeRequests = 0 :=
  metrics_active_peak.2.1 MetricsCollector.init "e" 200 5 rfl

/-- C1. LRU eviction order: a `set` of a fresh key on a full cache evicts
exactly the least-recently-accessed entry (the head of the recency order) and
appends the new entry as most recently used. In the P2 scenario (capacity 3,
insert `k1 k2 k3`, `get k1`, insert `k4`) the evicted entry is the
second-inserted key `k2`, not `k1`: `k1`, `k3` and `k4` still hit with their
values, `k2` misses, and the recency order is `k3, k1, k4`. -/
theorem lru_eviction_order :
    (∀ {V : Type} (c : LRUCache V) (key : String) (v : V) (ttl : Option Int) (now : Int),
        c.cache.length = c.maxSize → 1 ≤ c.maxSize → c.cache.lookup key = none →
        ∃ c', c.set key v ttl now = some c' ∧
          c'.cache = c.cache.tail ++ [(key, v)]) ∧
      (lruScenario.get "k1" 0).1 = some 1 ∧
      (lruScenario.get "k2" 0).1 = none ∧
      (lruScenario.get "k3" 0).1 = some 3 ∧
      (lruScenario.get "k4" 0).1 = some 4 ∧
      lruScenario.cache.map Prod.fst = ["k3", "k1", "k4"] := by
  refine ⟨?_, by decide, by decide, by decide, by decide, by decide⟩
  intro V c key v ttl now hlen h1 hnone
  have hs : (c.cache.lookup key).isSome = false := by rw [hnone]; rfl
  rcases hcache : c.cache with _ | ⟨⟨k0, v0⟩, rest⟩
  · rw [hcache] at hlen
    simp at hlen
    omega
  · have hrestlen : rest.length + 1 = c.maxSize := by
      rw [hcache] at hlen
      simpa using hlen
    have hrest : evictLoop c.maxSize rest = some (rest, []) := by
      rcases rest with _ | ⟨p, t⟩
      · unfold evictLoop
        rw [if_neg]
        simp only [List.length_nil] at hrestlen ⊢
        omega
      · unfold evictLoop
        rw [if_neg]
        simp only [List.length_cons] at hrestlen ⊢
        omega
    have hev : evictLoop c.maxSize c.cache = some (rest, [k0]) := by
      rw [hcache]
      unfold evictLoop
      rw [if_pos (by simp only [List.length_cons]; omega), hrest]
      rfl
    rcases hsome : c.set key v ttl now with _ | c'
    · exfalso
      simp only [LRUCache.set, hs, Bool.false_eq_true, if_false, hev] at hsome
      exact Option.noConfusion hsome
    · refine ⟨c', rfl, ?_⟩
      simp only [LRUCache.set, hs, Bool.false_eq_true, if_false, hev] at hsome
      rw [← Option.some.inj hsome]
      rfl

/-- C1 witness: on a full two-entry cache, inserting a fresh key evicts the
oldest entry. -/
theorem lru_eviction_order_witness :
    ∃ c', twoEntryCache.set "c" 9 none 0 = some c' ∧
      c'.cache = twoEntryCache.cache.tail ++ [("c", 9)] :=
  lru_eviction_order.1 twoEntryCache "c" 9 none 0 (by decide) (by decide) (by decide)

/-- C3. A `get` that finds an expired entry returns `None`, removes the entry
(the size reported by `get_stats` drops by one and a repeated `get` also
misses) and bumps the miss counter; a `get` that finds a present unexpired
entry returns its value and bumps the hit counter. -/
theorem lru_ttl_expiry_get {V : Type} (c : LRUCache V) (key : String)
    (now now2 : Int) (v : V) (hv : c.cache.lookup key = some v)
    (hnd : (c.cache.map Prod.fst).Nodup) :
    (c.isExpired key now = true →
        (c.get key now).1 = none ∧
        (c.get key now).2.misses = c.misses + 1 ∧
        (c.get key now).2.getStats.size + 1 = c.getStats.size ∧
        ((c.get key now).2.get key now2).1 = none) ∧
      (c.isExpired key now = false →
        (c.get key now).1 = some v ∧
        (c.get key now).2.hits = c.hits + 1) := by
  constructor
  · intro he
    refine ⟨?_, ?_, ?_, ?_⟩
    · simp only [LRUCache.get, hv, he, if_true]
    · simp only [LRUCache.get, hv, he, if_true]
      rfl
    · simp only [LRUCache.get, hv, he, if_true]
      show (c.removeKey key).cache.length + 1 = c.cache.length
      exact length_filter_ne_of_nodup hnd (mem_keys_of_lookup_eq_some hv)
    · simp only [LRUCache.get, hv, he, if_true]
      simp only [LRUCache.removeKey, lookup_filter_ne_none]
  · intro he
    constructor
    · simp only [LRUCache.get, hv, he, Bool.false_eq_true, if_false]
    · simp only [LRUCache.get, hv, he, Bool.false_eq_true, if_false]

/-- C3 witness: the instantiated conclusion of the expiry theorem at a
concrete cache whose only entry (written at time 0, ttl 1) is read at time 5,
where it is expired. -/
theorem lru_ttl_expiry_get_witness :
    (expiredCache.isExpired "x" 5 = true →
        (expiredCache.get "x" 5).1 = none ∧
        (expiredCache.get "x" 5).2.misses = expiredCache.misses + 1 ∧
        (expiredCache.get "x" 5).2.getStats.size + 1 = expiredCache.getStats.size ∧
        ((expiredCache.get "x" 5).2.get "x" 6).1 = none) ∧
      (expiredCache.isExpired "x" 5 = false →
        (expiredCache.get "x" 5).1 = some 7 ∧
        (expiredCache.get "x" 5).2.hits = expiredCache.hits + 1) :=
  lru_ttl_expiry_get expiredCache "x" 5 6 7 (by decide) (by decide)

/-- In an ascending-sorted list every element is below the last one
(`sorted_data[-1]`). -/
theorem sorted_le_last : ∀ (l : List ℚ), List.Sorted (· ≤ ·) l →
    ∀ y ∈ l, y ≤ l.getD (l.length - 1) 0 := by
  intro l
  induction l with
  | nil => intro _ y hy; exact absurd hy (List.not_mem_nil y)
  | cons a t ih =>
      intro hs y hy
      rcases t with _ | ⟨b, t'⟩
      · rcases List.mem_singleton.mp hy with rfl
        exact le_refl _
      · have hst : List.Sorted (· ≤ ·) (b :: t') := hs.of_cons
        have hidx : ((a :: b :: t').getD ((a :: b :: t').length - 1) 0) =
            ((b :: t').getD ((b :: t').length - 1) 0) := by
          simp only [List.length_cons, Nat.add_sub_cancel, List.getD_cons_succ]
        rw [hidx]
        rcases List.mem_cons.mp hy with rfl | hy'
        · exact le_trans ((List.rel_of_sorted_cons hs) b (List.mem_cons_self b t'))
            (ih hst b (List.mem_cons_self b t'))
        · exact ih hst y hy'

/-- In an ascending-sorted list the head is below every element. -/
theorem sorted_head_le : ∀ (l : List ℚ), List.Sorted (· ≤ ·) l →
    ∀ y ∈ l, l.getD 0 0 ≤ y := by
  intro l
  induction l with
  | nil => intro _ y hy; exact absurd hy (List.not_mem_nil y)
  | cons a t _ =>
      intro hs y hy
      rw [List.getD_cons_zero]
      rcases List.mem_cons.mp hy with rfl | hy'
      · exact le_refl _
      · exact (List.rel_of_sorted_cons hs) y hy'

/-- C6. For a non-empty sample series of length `n`, the percentile summary
indexes the ascending-sorted samples at `⌊n·0.5⌋` for `p50`, at `⌊n·0.95⌋`
for `p95` when `n ≥ 20` (the maximum sample below that), at `⌊n·0.99⌋` for
`p99` when `n ≥ 100` (the maximum sample below that), and reports the
smallest and largest samples as `min` and `max`. -/
theorem percentiles_correct (data : List ℚ) (hne : data ≠ []) :
    (calculatePercentiles data).p50 =
        (data.insertionSort (· ≤ ·)).getD (data.length / 2) 0 ∧
      (20 ≤ data.length → (calculatePercentiles data).p95 =
        (data.insertionSort (· ≤ ·)).getD (95 * data.length / 100) 0) ∧
      (data.length < 20 → (calculatePercentiles data).p95 = (calculatePercentiles data).max) ∧
      (100 ≤ data.length → (calculatePercentiles data).p99 =
        (data.insertionSort (· ≤ ·)).getD (99 * data.length / 100) 0) ∧
      (data.length < 100 → (calculatePercentiles data).p99 = (calculatePercentiles data).max) ∧
      ((calculatePercentiles data).min ∈ data ∧
        ∀ y ∈ data, (calculatePercentiles data).min ≤ y) ∧
      ((calculatePercentiles data).max ∈ data ∧
        ∀ y ∈ data, y ≤ (calculatePercentiles data).max) := by
  have hE : data.isEmpty = false := by
    cases data
    · exact absurd rfl hne
    · rfl
  have hperm := List.perm_insertionSort (· ≤ ·) data
  have hsorted := List.sorted_insertionSort (· ≤ ·) data
  have hlen : (data.insertionSort (· ≤ ·)).length = data.length := hperm.length_eq
  have hpos : 0 < data.length := List.length_pos.mpr hne
  refine ⟨?_, ?_, ?_, ?_, ?_, ?_, ?_⟩
  · simp only [calculatePercentiles, hE, Bool.false_eq_true, if_false]
  · intro h
    simp only [calculatePercentiles, hE, Bool.false_eq_true, if_false]
    rw [if_pos h]
  · intro h
    simp only [calculatePercentiles, hE, Bool.false_eq_true, if_false]
    rw [if_neg (by omega)]
  · intro h
    simp only [calculatePercentiles, hE, Bool.false_eq_true, if_false]
    rw [if_pos h]
  · intro h
    simp only [calculatePercentiles, hE, Bool.false_eq_true, if_false]
    rw [if_neg (by omega)]
  · have hm : (calculatePercentiles data).min =
        (data.insertionSort (· ≤ ·)).getD 0 0 := by
      simp only [calculatePercentiles, hE, Bool.false_eq_true, if_false]
    rw [hm]
    have h0 : 0 < (data.insertionSort (· ≤ ·)).length := by rw [hlen]; exact hpos
    constructor
    · rw [List.getD_eq_getElem _ _ h0]
      exact hperm.subset (List.getElem_mem h0)
    · intro y hy
      exact sorted_head_le _ hsorted y ((hperm.mem_iff).mpr hy)
  · have hm : (calculatePercentiles data).max =
        (data.insertionSort (· ≤ ·)).getD (data.length - 1) 0 := by
      simp only [calculatePercentiles, hE, Bool.false_eq_true, if_false]
    rw [hm]
    have hlt : data.length - 1 < (data.insertionSort (· ≤ ·)).length := by
      rw [hlen]; omega
    constructor
    · rw [List.getD_eq_getElem _ _ hlt]
      exact hperm.subset (List.getElem_mem hlt)
    · intro y hy
      have hy' : y ∈ data.insertionSort (· ≤ ·) := (hperm.mem_iff).mpr hy
      have := sorted_le_last _ hsorted y hy'
      rw [hlen] at this
      exact this

/-- C6 witness: the percentile summary of the three-sample series `[3, 1, 2]`
(`n = 3 < 20`, so `p95` and `p99` fall back to the maximum sample). -/
theorem percentiles_correct_witness :
    (calculatePercentiles [3, 1, 2]).p50 =
        (([3, 1, 2] : List ℚ).insertionSort (· ≤ ·)).getD (([3, 1, 2] : List ℚ).length / 2) 0 ∧
      (20 ≤ ([3, 1, 2] : List ℚ).length → (calculatePercentiles [3, 1, 2]).p95 =
        (([3, 1, 2] : List ℚ).insertionSort (· ≤ ·)).getD (95 * ([3, 1, 2] : List ℚ).length / 100) 0) ∧
      (([3, 1, 2] : List ℚ).length < 20 →
        (calculatePercentiles [3, 1, 2]).p95 = (calculatePercentiles [3, 1, 2]).max) ∧
      (100 ≤ ([3, 1, 2] : List ℚ).length → (calculatePercentiles [3, 1, 2]).p99 =
        (([3, 1, 2] : List ℚ).insertionSort (· ≤ ·)).getD (99 * ([3, 1, 2] : List ℚ).length / 100) 0) ∧
      (([3, 1, 2] : List ℚ).length < 100 →
        (calculatePercentiles [3, 1, 2]).p99 = (calculatePercentiles [3, 1, 2]).max) ∧
      ((calculatePercentiles [3, 1, 2]).min ∈ ([3, 1, 2] : List ℚ) ∧
        ∀ y ∈ ([3, 1, 2] : List ℚ), (calculatePercentiles [3, 1, 2]).min ≤ y) ∧
      ((calculatePercentiles [3, 1, 2]).max ∈ ([3, 1, 2] : List ℚ) ∧
        ∀ y ∈ ([3, 1, 2] : List ℚ), y ≤ (calculatePercentiles [3, 1, 2]).max) :=
  percentiles_correct [3, 1, 2] (by decide)

/-! ### Code-point string order: totality, transitivity, antisymmetry -/

/-- The code-point order on character lists is total. -/
theorem charsLe_total : ∀ (a b : List Char), charsLe a b = true ∨ charsLe b a = true := by
  intro a
  induction a with
  | nil => intro b; exact Or.inl rfl
  | cons x xs ih =>
      intro b
      rcases b with _ | ⟨y, ys⟩
      · exact Or.inr rfl
      · by_cases hxy : x.toNat < y.toNat
        · exact Or.inl (by simp [charsLe, hxy])
        · by_cases hyx : y.toNat < x.toNat
          · exact Or.inr (by simp [charsLe, hyx])
          · rcases ih ys with h | h
            · exact Or.inl (by simp [charsLe, hxy, hyx, h])
            · exact Or.inr (by simp [charsLe, hxy, hyx, h])

/-- The code-point order on character lists is transitive. -/
theorem charsLe_trans : ∀ (a b c : List Char),
    charsLe a b = true → charsLe b c = true → charsLe a c = true := by
  intro a
  induction a with
  | nil => intro b c _ _; rfl
  | cons x xs ih =>
      intro b c hab hbc
      rcases b with _ | ⟨y, ys⟩
      · simp [charsLe] at hab
      · rcases c with _ | ⟨z, zs⟩
        · simp [charsLe] at hbc
        · by_cases hxy : x.toNat < y.toNat
          · by_cases hyz : y.toNat < z.toNat
            · simp [charsLe, show x.toNat < z.toNat by omega]
            · by_cases hzy : z.toNat < y.toNat
              · simp [charsLe, hyz, hzy] at hbc
              · simp [charsLe, show x.toNat < z.toNat by omega]
          · by_cases hyx : y.toNat < x.toNat
            · simp [charsLe, hxy, hyx] at hab
            · by_cases hyz : y.toNat < z.toNat
              · simp [charsLe, show x.toNat < z.toNat by omega]
              · by_cases hzy : z.toNat < y.toNat
                · simp [charsLe, hyz, hzy] at hbc
                · have h1 : ¬x.toNat < z.toNat := by omega
                  have h2 : ¬z.toNat < x.toNat := by omega
                  simp [charsLe, hxy, hyx] at hab
                  simp [charsLe, hyz, hzy] at hbc
                  simp [charsLe, h1, h2]
                  exact ih ys zs hab hbc

/-- The code-point order on character lists is antisymmetric. -/
theorem charsLe_antisymm : ∀ (a b : List Char),
    charsLe a b = true → charsLe b a = true → a = b := by
  intro a
  induction a with
  | nil =>
      intro b _ hba
      rcases b with _ | ⟨y, ys⟩
      · rfl
      · simp [charsLe] at hba
  | cons x xs ih =>
      intro b hab hba
      rcases b with _ | ⟨y, ys⟩
      · simp [charsLe] at hab
      · by_cases hxy : x.toNat < y.toNat
        · simp [charsLe, hxy, show ¬y.toNat < x.toNat by omega] at hba
        · by_cases hyx : y.toNat < x.toNat
          · simp [charsLe, hxy, hyx] at hab
          · have hchar : x = y := Char.ext (UInt32.ext (show x.toNat = y.toNat by omega))
            simp [charsLe, hxy, hyx] at hab
            simp [charsLe, hxy, hyx] at hba
            rw [hchar, ih ys hab hba]

/-- The order `keyLe` (ordering object fields by key) is total. -/
instance {β : Type} : IsTotal (String × β) keyLe :=
  ⟨fun a b => charsLe_total a.1.data b.1.data⟩

/-- The order `keyLe` is transitive. -/
instance {β : Type} : IsTrans (String × β) keyLe :=
  ⟨fun a b c hab hbc => charsLe_trans a.1.data b.1.data c.1.data hab hbc⟩

/-- Fields related by `keyLe` both ways share their key. -/
theorem keyLe_antisymm {β : Type} {a b : String × β}
    (hab : keyLe a b) (hba : keyLe b a) : a.1 = b.1 :=
  String.ext (charsLe_antisymm a.1.data b.1.data hab hba)

/-- Two sorted field lists that are permutations of each other with distinct
keys coincide. -/
theorem sorted_perm_nodup_eq {β : Type} :
    ∀ (l1 l2 : List (String × β)), l1.Perm l2 → List.Sorted keyLe l1 →
      List.Sorted keyLe l2 → (l1.map Prod.fst).Nodup → l1 = l2 := by
  intro l1
  induction l1 with
  | nil =>
      intro l2 hp _ _ _
      exact (List.Perm.eq_nil hp.symm).symm
  | cons a t1 ih =>
      intro l2 hp hs1 hs2 hnd
      rcases l2 with _ | ⟨b, t2⟩
      · exact absurd (List.Perm.eq_nil hp) (by simp)
      · have hnd' := hnd
        rw [List.map_cons] at hnd'
        rcases List.nodup_cons.mp hnd' with ⟨hn1, hn2⟩
        have hab : a = b := by
          have hbmem : b ∈ a :: t1 := (hp.mem_iff).mpr (List.mem_cons_self b t2)
          rcases List.mem_cons.mp hbmem with hba | hbt
          · exact hba.symm
          · have h1 : keyLe a b := (List.rel_of_sorted_cons hs1) b hbt
            have hamem : a ∈ b :: t2 := (hp.mem_iff).mp (List.mem_cons_self a t1)
            rcases List.mem_cons.mp hamem with hab' | hat
            · exact hab'
            · have h2 : keyLe b a := (List.rel_of_sorted_cons hs2) a hat
              have hk : a.1 = b.1 := keyLe_antisymm h1 h2
              exact absurd (hk ▸ (List.mem_map_of_mem Prod.fst hbt)) hn1
        subst hab
        rw [ih t2 hp.cons_inv hs1.of_cons hs2.of_cons hn2]

/-- Rendering object fields maps each value through the serialiser, keeping
keys and order. -/
theorem jsonFields_map (l : List (String × JVal)) :
    jsonFields l = l.map (fun p => (p.1, jsonDumps p.2)) := by
  induction l with
  | nil => rfl
  | cons p t ih =>
      rcases p with ⟨k, v⟩
      simp [jsonFields, ih]

/-- Sorting the rendered fields of two permuted field lists with distinct
keys yields the same list. -/
theorem sortRendered_perm_eq (l1 l2 : List (String × JVal)) (hp : l1.Perm l2)
    (hnd : (l1.map Prod.fst).Nodup) :
    sortRenderedFields (jsonFields l1) = sortRenderedFields (jsonFields l2) := by
  have hp' : (jsonFields l1).Perm (jsonFields l2) := by
    rw [jsonFields_map, jsonFields_map]
    exact hp.map _
  have hkeys : ((jsonFields l1).map Prod.fst) = l1.map Prod.fst := by
    rw [jsonFields_map, List.map_map]
    rfl
  apply sorted_perm_nodup_eq
  · exact (List.perm_insertionSort keyLe _).trans
      (hp'.trans (List.perm_insertionSort keyLe _).symm)
  · exact List.sorted_insertionSort keyLe _
  · exact List.sorted_insertionSort keyLe _
  · have hpk : ((sortRenderedFields (jsonFields l1)).map Prod.fst).Perm
        ((jsonFields l1).map Prod.fst) := (List.perm_insertionSort keyLe _).map _
    exact (hpk.nodup_iff).mpr (hkeys ▸ hnd)

/-! ### Length of the derived key -/

/-- A SHA-256 round preserves the length of the working state. -/
theorem sha2Round_length (st : List Nat) (k w : Nat) :
    (sha2Round st k w).length = st.length := by
  unfold sha2Round
  split <;> rfl

/-- The folded rounds preserve the length of the working state. -/
theorem foldl_sha2Round_length (l : List (Nat × Nat)) :
    ∀ (st : List Nat),
      (l.foldl (fun s kw => sha2Round s kw.1 kw.2) st).length = st.length := by
  induction l with
  | nil => exact fun _ => rfl
  | cons p t ih =>
      intro st
      rw [List.foldl_cons, ih, sha2Round_length]

/-- Compression preserves the eight-word hash length. -/
theorem sha2Compress_length (h block : List Nat) (hh : h.length = 8) :
    (sha2Compress h block).length = 8 := by
  unfold sha2Compress
  rw [List.length_map, List.length_zip, foldl_sha2Round_length, hh]
  rfl

/-- The SHA-256 hash value always has eight words. -/
theorem sha256Words_length (msg : List Nat) : (sha256Words msg).length = 8 := by
  unfold sha256Words
  have : ∀ (bs : List (List Nat)) (h : List Nat), h.length = 8 →
      (bs.foldl sha2Compress h).length = 8 := by
    intro bs
    induction bs with
    | nil => exact fun h hh => hh
    | cons b t ih =>
        intro h hh
        rw [List.foldl_cons]
        exact ih _ (sha2Compress_length h b hh)
  exact this _ sha2H0 rfl

/-- The hex digest has 64 characters. -/
theorem sha256HexChars_length (msg : List Nat) : (sha256HexChars msg).length = 64 := by
  unfold sha256HexChars
  have hflat : ∀ (l : List Nat), ((l.map word8Hex).flatten).length = 8 * l.length := by
    intro l
    induction l with
    | nil => rfl
    | cons w t ih =>
        simp only [List.map_cons, List.flatten_cons, List.length_append, ih]
        have : (word8Hex w).length = 8 := by
          unfold word8Hex
          rw [List.length_map, List.length_range]
        rw [this]
        simp only [List.length_cons]
        ring
  rw [hflat, sha256Words_length]

/-- After a `set_embedding` under `motion` on a fresh manager, the `gesture`
namespace is still the freshly initialised empty cache and the `enabled` flag
is unchanged. -/
theorem gesture_after_motion_set {V : Type} (cfg : CacheConfig) (d : JVal)
    (v : V) (ttl : Option Int) (now : Int) :
    ((CacheManager.init V cfg).setEmbedding "motion" d v ttl now).gestureCache =
        LRUCache.init V cfg.maxSize cfg.ttl ∧
      ((CacheManager.init V cfg).setEmbedding "motion" d v ttl now).enabled =
        cfg.enabled := by
  unfold CacheManager.setEmbedding
  by_cases he : cfg.enabled
  · have hen : ((CacheManager.init V cfg).enabled) = true := he
    simp only [CacheManager.init] at hen ⊢
    rw [hen]
    simp only [Bool.not_true, Bool.false_eq_true, if_false,
      show knownEncoderType "motion" = true from rfl, Bool.not_true]
    split
    · exact ⟨rfl, rfl⟩
    · exact ⟨rfl, rfl⟩
  · have hen : ((CacheManager.init V cfg).enabled) = false :=
      Bool.of_not_eq_true he
    simp only [CacheManager.init] at hen ⊢
    rw [hen]
    simp only [Bool.not_false, if_true]
    exact ⟨by trivial, by trivial⟩

/-- C9. Cache-key derivation: (i) the derived key is invariant under
reordering of mapping fields (serialisation sorts mapping keys), so the same
logical input always yields the same key; (ii) for any input, the `motion`
and `gesture` namespaces hash distinct combined strings
(`f"{encoder_type}:{serialized}"`); (iii) consequently a value stored under
`motion` on a fresh manager is not retrievable under `gesture` for the same
raw input; (iv) the key always has 32 (hex) characters. -/
theorem cache_key_derivation :
    (∀ (t : String) (l1 l2 : List (String × JVal)), l1.Perm l2 →
        (l1.map Prod.fst).Nodup →
        generateCacheKey t (.jobj l1) = generateCacheKey t (.jobj l2)) ∧
      (∀ d : JVal,
        String.mk ("motion".data ++ ':' :: serializeData d) ≠
          String.mk ("gesture".data ++ ':' :: serializeData d)) ∧
      (∀ (V : Type) (cfg : CacheConfig) (d : JVal) (v : V) (ttl : Option Int)
          (now now2 : Int),
        (((CacheManager.init V cfg).setEmbedding "motion" d v ttl now).getEmbedding
            "gesture" d now2).1 = none) ∧
      (∀ (t : String) (d : JVal), (generateCacheKey t d).length = 32) := by
  refine ⟨?_, ?_, ?_, ?_⟩
  · intro t l1 l2 hp hnd
    have h := sortRendered_perm_eq l1 l2 hp hnd
    unfold generateCacheKey serializeData
    simp only [jsonDumps, h]
  · intro d h
    have h2 := congrArg String.data h
    have hm : ("motion".data : List Char) = ['m', 'o', 't', 'i', 'o', 'n'] := rfl
    have hg : ("gesture".data : List Char) = ['g', 'e', 's', 't', 'u', 'r', 'e'] := rfl
    rw [show (String.mk ("motion".data ++ ':' :: serializeData d)).data =
        "motion".data ++ ':' :: serializeData d from rfl,
      show (String.mk ("gesture".data ++ ':' :: serializeData d)).data =
        "gesture".data ++ ':' :: serializeData d from rfl, hm, hg] at h2
    simp only [List.cons_append] at h2
    injection h2 with h3 _
    exact absurd h3 (by decide)
  · intro V cfg d v ttl now now2
    rcases gesture_after_motion_set cfg d v ttl now with ⟨hg, _⟩
    cases hb : ((CacheManager.init V cfg).setEmbedding "motion" d v ttl now).enabled
    · simp [CacheManager.getEmbedding, hb]
    · simp [CacheManager.getEmbedding, hb, knownEncoderType, CacheManager.cacheOf,
        hg, LRUCache.get, LRUCache.init, List.lookup]
  · intro t d
    show ((sha256HexChars _).take 32).length = 32
    rw [List.length_take, sha256HexChars_length]
    decide

/-- C9 witness: the key of a two-field mapping does not depend on the order
in which the fields are supplied. -/
theorem cache_key_derivation_witness :
    generateCacheKey "motion" (.jobj [("a", .jnum 1), ("b", .jnum 2)]) =
      generateCacheKey "motion" (.jobj [("b", .jnum 2), ("a", .jnum 1)]) :=
  cache_key_derivation.1 "motion" [("a", JVal.jnum 1), ("b", JVal.jnum 2)]
    [("b", JVal.jnum 2), ("a", JVal.jnum 1)]
    (List.Perm.swap ("b", JVal.jnum 2) ("a", JVal.jnum 1) []) (by decide)

/-- C5 (amended). Behaviour of the `cached_encode` wrapper: on a hit the
underlying function is not called (call count 0) and the cached value is
returned; on a miss the underlying function is called exactly once; if that
call raises, the exception propagates unchanged and `set_embedding` is never
invoked — the final cache-manager state is exactly the post-lookup state (no
entry stored; the only changes are the lookup's own effects) and the metrics
got exactly the one miss recording. -/
theorem cached_encode_error_no_set {V E : Type} (t : String)
    (func : JVal → Except E (Option V)) (d : JVal) (st : ServiceState V) (now : Int) :
    (∀ v, (st.cacheMgr.getEmbedding t d now).1 = some v →
        cachedEncode t func d st now =
          (.ok (some v),
            ⟨(st.cacheMgr.getEmbedding t d now).2, st.metrics.recordCacheHit⟩, 0)) ∧
      ((st.cacheMgr.getEmbedding t d now).1 = none →
        (cachedEncode t func d st now).2.2 = 1) ∧
      (∀ e, (st.cacheMgr.getEmbedding t d now).1 = none → func d = .error e →
        cachedEncode t func d st now =
          (.error e,
            ⟨(st.cacheMgr.getEmbedding t d now).2, st.metrics.recordCacheMiss⟩, 1)) := by
  refine ⟨?_, ?_, ?_⟩
  · intro v hv
    simp only [cachedEncode, hv]
  · intro hv
    simp only [cachedEncode, hv]
    rcases hf : func d with e | r
    · simp only [hf]
    · rcases r with _ | v
      · simp only [hf]
      · simp only [hf]
  · intro e hv hf
    simp only [cachedEncode, hv, hf]

/-- C5 counterexample: a concrete miss whose underlying call raises. The
exception propagates and nothing is stored, but the cache state is *not*
exactly as it was before the call: the failed lookup itself incremented the
`motion` cache's miss counter from 0 to 1, so the final manager differs from
the initial one. -/
theorem cached_encode_error_changes_state :
    (cachedEncode "motion" (fun _ => Except.error ()) (JVal.jstr "x")
        ⟨CacheManager.init Int defaultCacheConfig, MetricsCollector.init⟩ 0).1 =
        Except.error () ∧
      (cachedEncode "motion" (fun _ => Except.error ()) (JVal.jstr "x")
        ⟨CacheManager.init Int defaultCacheConfig, MetricsCollector.init⟩
        0).2.1.cacheMgr.motionCache.misses = 1 ∧
      (CacheManager.init Int defaultCacheConfig).motionCache.misses = 0 ∧
      (cachedEncode "motion" (fun _ => Except.error ()) (JVal.jstr "x")
        ⟨CacheManager.init Int defaultCacheConfig, MetricsCollector.init⟩
        0).2.1.cacheMgr ≠ CacheManager.init Int defaultCacheConfig := by
  refine ⟨rfl, by decide, rfl, ?_⟩
  intro h
  exact absurd (congrArg (fun m => m.motionCache.misses) h) (by decide)

/-- C5 witness: the instantiated error case — the exception propagates, the
manager is exactly the post-lookup manager, the metrics got one miss, and the
underlying function was called once. -/
theorem cached_encode_error_no_set_witness :
    cachedEncode "motion" (fun _ => Except.error ()) (JVal.jstr "x")
        ⟨CacheManager.init Int defaultCacheConfig, MetricsCollector.init⟩ 0 =
      (Except.error (),
        ⟨((⟨CacheManager.init Int defaultCacheConfig,
              MetricsCollector.init⟩ : ServiceState Int).cacheMgr.getEmbedding "motion"
            (JVal.jstr "x") 0).2,
          (⟨CacheManager.init Int defaultCacheConfig,
              MetricsCollector.init⟩ : ServiceState Int).metrics.recordCacheMiss⟩, 1) :=
  (cached_encode_error_no_set "motion" (fun _ => Except.error ()) (JVal.jstr "x")
      ⟨CacheManager.init Int defaultCacheConfig, MetricsCollector.init⟩ 0).2.2 ()
    (by decide) rfl
